import Mathlib

/-!
# Verification of the Cybermeneutics entity-indexing and substitution engine

A shallow embedding of the core of `Cybermeneutics.py` (class `Corpus`).
Python strings are modelled as `List Char` (one element per code point).
Case folding and the regex `\b`/`\w` classes are modelled over ASCII, which
is the fragment exercised by the script's own data (`PERSON`, `LIST`, …).
The spaCy NER model is an external capability; it is passed in as a function
from paragraph text to labelled spans, exactly at the boundary where the
script consumes it (`self.model(paragraph)` followed by `doc.ents`).
-/

namespace Cyber

/-- Python `str` as a list of code points. -/
abbrev Str := List Char

/-- Character of `t` at index `i` (a space — never a bracket or a word
character participating in our proofs' interesting cases — out of range). -/
def chAt (t : Str) (i : Nat) : Char := t.getD i ' '

/-- The slice `t[a:b]` of Python. -/
def slice (t : Str) (a b : Nat) : Str := (t.drop a).take (b - a)

/-- ASCII lower-casing of one character, the fragment of Python's `str.lower`
and `re.IGNORECASE` used here. -/
def lowerChar (c : Char) : Char :=
  if 65 ≤ c.toNat ∧ c.toNat ≤ 90 then Char.ofNat (c.toNat + 32) else c

/-- ASCII lower-casing of a string. -/
def lowerStr (s : Str) : Str := s.map lowerChar

/-- Word character for the regex `\b` boundary (`\w` = alphanumeric or `_`). -/
def wordChar (c : Char) : Bool := c.isAlphanum || c == '_'

/-- Greatest `j < n` with `P j`, as computed by a right-to-left scan
(the model for Python's `str.rfind`). -/
def findLast (P : Nat → Bool) : Nat → Option Nat
  | 0 => none
  | n + 1 => if P n then some n else findLast P n

/-- Is there a `j < n` with `P j`?  (model for `in`/`str.find` tests). -/
def anyBelow (P : Nat → Bool) : Nat → Bool
  | 0 => false
  | n + 1 => P n || anyBelow P n

/-- Fuel-driven scan for `findSubFrom`; one fuel unit per candidate start
position, so `t.length + 1 - i` units are always enough. -/
def findSubFromAux (t p : Str) : Nat → Nat → Option Nat
  | 0, _ => none
  | fuel + 1, i =>
    if t.length < i + p.length then none
    else if slice t i (i + p.length) == p then some i
    else findSubFromAux t p fuel (i + 1)

/-- First index at which `p` occurs in `t`, searching from `i` upward:
Python's `str.find(p, i)` (as an `Option` instead of `-1`). -/
def findSubFrom (t p : Str) (i : Nat) : Option Nat :=
  findSubFromAux t p (t.length + 1 - i) i

/-- Python's `str.find` (as an `Option` instead of `-1`). -/
def findSub (t p : Str) : Option Nat := findSubFrom t p 0

/-- Python's `p in t` substring test. -/
def containsSub (t p : Str) : Bool := (findSub t p).isSome

/-- Fuel-driven splitting loop for `splitSub`; every found separator consumes
at least one character, so `t.length + 1` fuel units are always enough. -/
def splitSubAux (sep : Str) : Nat → Str → List Str
  | 0, t => [t]
  | fuel + 1, t =>
    if sep.length = 0 then [t]
    else
      match findSub t sep with
      | none => [t]
      | some i => slice t 0 i :: splitSubAux sep fuel (slice t (i + sep.length) t.length)

/-- Python's `str.split(sep)` for a nonempty separator: greedy leftmost
split, keeping empty pieces. -/
def splitSub (t sep : Str) : List Str := splitSubAux sep (t.length + 1) t

/-- Python's `str.replace(old, new)` for nonempty `old`. -/
def replaceSub (t old new : Str) : Str := List.intercalate new (splitSub t old)

/-! ## Term normalizer (`_clean_entity_text` and the key derivations) -/

/-- Translation of `Corpus._clean_entity_text`: strip a trailing `'s`, else a bare trailing
apostrophe. -/
def cleanEntityText (t : Str) : Str :=
  if "'s".data.isSuffixOf t then t.take (t.length - 2)
  else if ['\''].isSuffixOf t then t.take (t.length - 1)
  else t

/-- Key derivation for an NER entity (`process`, line 550):
`cleaned_entity_text.replace(" ", "_")`.  Note: no case folding. -/
def entKey (t : Str) : Str :=
  (cleanEntityText t).map fun c => if c == ' ' then '_' else c

/-- Key derivation for a word-list term (`process`, lines 569/583):
`list_word.lower().replace(" ", "_")`. -/
def listKey (w : Str) : Str :=
  (lowerStr w).map fun c => if c == ' ' then '_' else c

/-! ## Occurrence index (`self.dictionary`) -/

/-- One value of `self.dictionary`: `{counts, type, original_text}`.
`counts` is an insertion-ordered association list, like a Python dict. -/
structure Entry where
  counts : List (Str × Nat)
  type_ : Str
  original_text : Str
deriving DecidableEq, Repr

/-- Translation of `self.dictionary`: insertion-ordered mapping from identity key to entry. -/
abbrev Dict := List (Str × Entry)

/-- Python `d[k]` / `k in d` combined: first binding of `k`. -/
def lookup (d : Dict) (k : Str) : Option Entry :=
  (d.find? fun kv => kv.1 == k).map (·.2)

/-- Increment helper used by `_add_to_dictionary` when the key exists:
bump the per-file count by 1, creating the file's count at 1 if absent. -/
def bumpEntry (e : Entry) (file : Str) : Entry :=
  if (e.counts.find? fun c => c.1 == file).isSome then
    { e with counts := e.counts.map fun c => if c.1 == file then (c.1, c.2 + 1) else c }
  else
    { e with counts := e.counts ++ [(file, 1)] }

/-- Translation of `Corpus._add_to_dictionary(key, text_file, word_type, original_text)`. -/
def addToDictionary (d : Dict) (key file wordType orig : Str) : Dict :=
  match lookup d key with
  | none => d ++ [(key, ⟨[(file, 1)], wordType, orig⟩)]
  | some _ => d.map fun kv => if kv.1 == key then (kv.1, bumpEntry kv.2 file) else kv

/-- The word-list branch of `process` (lines 568–580): record `cnt` matches of
list word `w` in `file` (only called with `cnt > 0`). -/
def addListWord (d : Dict) (w file : Str) (cnt : Nat) : Dict :=
  match lookup d (listKey w) with
  | none => d ++ [(listKey w, ⟨[(file, cnt)], "LIST".data, w⟩)]
  | some _ =>
      d.map fun kv =>
        if kv.1 == listKey w then
          (kv.1,
            if (kv.2.counts.find? fun c => c.1 == file).isSome then
              { kv.2 with counts := kv.2.counts.map fun c =>
                  if c.1 == file then (c.1, c.2 + cnt) else c }
            else
              { kv.2 with counts := kv.2.counts ++ [(file, cnt)] })
        else kv

/-- The seeding loop of `process` (lines 582–589): every word-list term gets
an entry with empty `counts` unless its key is already present. -/
def seedWordList (d : Dict) (words : List Str) : Dict :=
  words.foldl
    (fun d w =>
      if (lookup d (listKey w)).isSome then d
      else d ++ [(listKey w, ⟨[], "LIST".data, w⟩)])
    d

/-! ## Candidate filtering (`_filter_dictionary`) -/

/-- The cleaned text used by `_filter_dictionary` for the length/stoplist
checks: `text.replace("-", "").replace("'", "").replace(".", "")`. -/
def filterClean (t : Str) : Str :=
  t.filter fun c => !(c == '-' || c == '\'' || c == '.')

/-- Translation of `Corpus._filter_dictionary(token)`.  In `process` the argument is a spaCy
`Span`, so `isinstance(token, spacy.tokens.Token)` is false and the
`is_stop` check is skipped; both flags are kept for fidelity. -/
def filterDictionary (isSpacyToken isStop : Bool) (text : Str) : Bool :=
  if isSpacyToken && isStop then false
  else if text.contains '\n' then false
  else if (filterClean text).length < 2 then false
  else if filterClean text == "Mr.".data || filterClean text == "Mrs.".data
      || filterClean text == "Ms.".data then false
  else true

/-! ## The scan pass (`process`) -/

/-- A labelled span as produced by the NER capability (`doc.ents`). -/
structure SpacyEnt where
  text : Str
  label_ : Str
deriving DecidableEq, Repr

/-- The entity-label allow-list of `process` (line 548). -/
def allowedLabels : List Str :=
  ["PERSON", "ORG", "GPE", "LOC", "FAC", "NORP", "DATE", "WORK_OF_ART",
    "PRODUCT"].map (·.data)

/-- The per-entity body of `process` (lines 547–556).  `ent` is a spaCy
`Span`, so `filterDictionary`'s `isinstance` flag is `false`; the
`try/except` around `_add_to_dictionary` is dead since the helper is total. -/
def processEnt (d : Dict) (file : Str) (ent : SpacyEnt) : Dict :=
  if allowedLabels.contains ent.label_ then
    if filterDictionary false false ent.text then
      addToDictionary d (entKey ent.text) file ent.label_ (cleanEntityText ent.text)
    else d
  else d

/-- Translation of `Corpus._clean_text` (lines 487–498), byte-faithful to the source: the
first five replacements use the ASCII hyphen, double space, and ASCII
period (the comments speak of em dashes and ellipses, but the literals are
ASCII), then curly quotes and backticks are normalised. -/
def cleanText (t : Str) : Str :=
  let t := replaceSub t "-".data "--".data
  let t := replaceSub t "-".data "-".data
  let t := replaceSub t "--".data " -- ".data
  let t := replaceSub t "  ".data " ".data
  let t := replaceSub t ".".data "...".data
  let t := replaceSub t "’".data "'".data
  let t := replaceSub t "'".data "'".data
  let t := replaceSub t "“".data "\"".data
  let t := replaceSub t "”".data "\"".data
  replaceSub t "`".data "'".data

/-- Python's `str.strip()` (whitespace at both ends). -/
def pyStrip (t : Str) : Str :=
  (t.dropWhile Char.isWhitespace).reverse.dropWhile Char.isWhitespace |>.reverse

/-- Translation of `Corpus._extract_yaml_and_text`: from the first `---` to the second
`---`; both pieces `strip`ped; `(None, input)` when either is missing. -/
def extractYamlAndText (s : Str) : Option Str × Str :=
  match findSub s "---".data with
  | none => (none, s)
  | some start =>
    match findSubFrom s "---".data (start + 3) with
    | none => (none, s)
    | some e =>
        (some (pyStrip (slice s (start + 3) e)), pyStrip (slice s (e + 3) s.length))

/-! ## Regex matching: `r'\b' + re.escape(word) + r'\b'` with `re.IGNORECASE` -/

/-- Is there a `\b` boundary at position `k` of `t` (between `t[k-1]` and
`t[k]`, out-of-range treated as non-word)? -/
def boundaryAt (t : Str) (k : Nat) : Bool :=
  (if k = 0 then false else wordChar (chAt t (k - 1))) != wordChar (chAt t k)

/-- Does the literal pattern `p` match at position `i` of `t`, with word
boundaries on both sides, ignoring ASCII case? -/
def matchAt (t p : Str) (i : Nat) : Bool :=
  decide (i + p.length ≤ t.length) && (lowerStr (slice t i (i + p.length)) == lowerStr p)
    && boundaryAt t i && boundaryAt t (i + p.length)

/-- Fuel-driven counting loop; the scan advances at least one position per
fuel unit, so `t.length + 1` units are always enough from position `0`. -/
def countFromAux (t p : Str) : Nat → Nat → Nat
  | 0, _ => 0
  | fuel + 1, i =>
    if t.length ≤ i then 0
    else if 0 < p.length ∧ matchAt t p i = true then 1 + countFromAux t p fuel (i + p.length)
    else countFromAux t p fuel (i + 1)

/-- Number of non-overlapping matches found by `re.finditer`, scanning
from position `i` (used for the word-list counts of `process`). -/
def countFrom (t p : Str) (i : Nat) : Nat := countFromAux t p (t.length + 1 - i) i

/-- Match count of `process` lines 560–565. -/
def countMatches (t p : Str) : Nat := countFrom t p 0

/-- The per-file body of `process` (lines 535–580, minus file I/O): clean the
raw text, attempt YAML extraction, feed blank-line-separated paragraphs
(inner newlines flattened to spaces) to the NER capability, then scan the
whole text for each word-list term. -/
def processOneFile (ner : Str → List SpacyEnt) (words : List Str) (d : Dict)
    (file raw : Str) : Dict :=
  let text := (extractYamlAndText (cleanText raw)).2
  let d1 := (splitSub text "\n\n".data).foldl
    (fun d par =>
      (ner (replaceSub par "\n".data " ".data)).foldl
        (fun d ent => processEnt d file ent) d)
    d
  words.foldl
    (fun d w =>
      let cnt := countMatches text w
      if 0 < cnt then addListWord d w file cnt else d)
    d1

/-- The file loop of `process` (lines 534–589) with file reads made explicit:
each document is read once; a read failure is an uncaught exception, so it
aborts the loop (there is no `try/except` around the per-file body).  Ends
with the word-list seeding loop. -/
def processFiles (ner : Str → List SpacyEnt) (words : List Str)
    (reads : List (Str × Except Unit Str)) (d : Dict) : Except Unit Dict :=
  match reads with
  | [] => .ok (seedWordList d words)
  | (_, .error e) :: _ => .error e
  | (file, .ok raw) :: rest =>
      processFiles ner words rest (processOneFile ner words d file raw)

/-! ## The substitution engine (`_replace_words`) -/

/-- Translation of `Corpus._term_appears_in_file`. -/
def termAppears (d : Dict) (term file : Str) : Bool :=
  match lookup d term with
  | none => false
  | some e => (e.counts.find? fun c => c.1 == file).isSome

/-- Translation of `word.replace("_", " ")`. -/
def underscoreToSpace (w : Str) : Str := w.map fun c => if c == '_' then ' ' else c

/-- The `patterns` list of `_replace_words` (lines 623–636), pattern text
only.  Each tuple also carries `link_word` (always the dictionary key) and a
`display_text` that the replacer never uses; both are dropped here.  For an
underscored key the space version is appended twice, then every base picks
up an `'s` and a bare-apostrophe variant, in source order. -/
def allPatterns (word : Str) : List Str :=
  let base := if word.contains '_'
    then [underscoreToSpace word, underscoreToSpace word]
    else [word]
  base ++ base.flatMap fun p => [p ++ "'s".data, p ++ ['\'']]

/-- The inside-a-link test of the `replacer` closure (lines 649–664): the
last `[[` before the match start, no `]]` between it and the match, and
some `]]` after the match end — all computed on the pass's snapshot text. -/
def insideLink (t : Str) (s e : Nat) : Bool :=
  match findLast (fun j => chAt t j == '[' && chAt t (j + 1) == '[') (s - 1) with
  | none => false
  | some lo =>
      !(anyBelow (fun j => decide (lo ≤ j) && decide (j + 2 ≤ s)
          && (chAt t j == ']' && chAt t (j + 1) == ']')) s)
        && anyBelow (fun j => decide (e ≤ j)
            && (chAt t j == ']' && chAt t (j + 1) == ']')) t.length

/-- The link markup written by the replacer:
`[[ENTITY/{word_type}/{link_word}|{matched_text}]]`. -/
def linkInsert (wordType linkWord matched : Str) : Str :=
  '[' :: '[' :: ("ENTITY/".data ++ wordType ++ '/' :: linkWord ++ '|' :: matched)
    ++ [']', ']']

/-- The `replacer` closure of `_replace_words` (lines 644–668) for the match
`t[s:e]` on snapshot `t`: keep the match inside an existing link, link it
otherwise.  The display text is the matched text itself. -/
def replacerFn (t wordType linkWord : Str) (s e : Nat) : Str :=
  if insideLink t s e then slice t s e
  else linkInsert wordType linkWord (slice t s e)

/-- Fuel-driven substitution loop; the scan advances at least one position
per fuel unit, so `t.length + 1 - i` units are always enough. -/
def reSubFromAux (t p wordType linkWord : Str) : Nat → Nat → Str
  | 0, _ => []
  | fuel + 1, i =>
    if t.length ≤ i then []
    else if 0 < p.length ∧ matchAt t p i = true then
      replacerFn t wordType linkWord i (i + p.length)
        ++ reSubFromAux t p wordType linkWord fuel (i + p.length)
    else chAt t i :: reSubFromAux t p wordType linkWord fuel (i + 1)

/-- Translation of `re.sub(pattern, replacer, text)` for the literal word-boundary pattern:
scan the snapshot `t` left to right from position `i`, replacing each
non-overlapping match via `replacerFn` (which reads the whole snapshot). -/
def reSubFrom (t p wordType linkWord : Str) (i : Nat) : Str :=
  reSubFromAux t p wordType linkWord (t.length + 1 - i) i

/-- One `re.sub` pass of `_replace_words` (line 670). -/
def reSub (t p wordType linkWord : Str) : Str := reSubFrom t p wordType linkWord 0

/-- Translation of `Corpus._replace_words(text, word, word_type, current_file_path)`:
return `text` unchanged when the term has no count for this file, otherwise
run one `re.sub` pass per pattern, each on the previous pass's output. -/
def replaceWords (d : Dict) (text word wordType file : Str) : Str :=
  if termAppears d word file then
    (allPatterns word).foldl (fun t p => reSub t p wordType word) text
  else text

/-! ## The generate pass -/

/-- The publication test of `generate` (lines 683 and 712):
`(len(sources) >= min_sources and total_count >= min_count) or type == "LIST"`. -/
def published (e : Entry) (minSources minCount : Nat) : Bool :=
  (decide (minSources ≤ e.counts.length)
      && decide (minCount ≤ (e.counts.map (·.2)).sum))
    || (e.type_ == "LIST".data)

/-- The per-document rewrite loop of `generate` (lines 707–715): fold the
dictionary in iteration order, substituting every published entry. -/
def rewriteFile (d : Dict) (minSources minCount : Nat) (file text : Str) : Str :=
  d.foldl
    (fun t kv =>
      if published kv.2 minSources minCount then
        replaceWords d t kv.1 kv.2.type_ file
      else t)
    text

/-- Translation of `Corpus._strip_path`: the `split("/")` result is immediately overwritten
by the `split("\\")` one (source line 609 shadows 608), then everything
before the first dot of that is returned. -/
def stripPath (p : Str) : Str :=
  (splitSub ((splitSub p ['\\']).getLastD []) ['.']).headD []

/-- Translation of `Corpus._remove_path_from_title`: keep only what follows the last `/`. -/
def removePathFromTitle (p : Str) : Str := (splitSub p ['/']).getLastD []

/-- Translation of `Corpus._create_file_link(path, title)`. -/
def createFileLink (dataPath path title : Str) : Str :=
  let rel := replaceSub path (dataPath ++ ['\\']) []
  let rel := replaceSub rel ".txt".data []
  let rel := replaceSub rel ".md".data []
  let rel := replaceSub rel ['\\'] ['/']
  "[[FILES/".data ++ rel ++ '|' :: removePathFromTitle title ++ "]]".data

/-- The index-card body built by `generate` (lines 689–696): heading, then
either the occurrence list or the literal not-found note.  (`display_name`
uses `original_text`, which `_add_to_dictionary` always sets.) -/
def genCardContent (dataPath : Str) (e : Entry) : Str :=
  let head := "# ".data ++ e.original_text ++ "\n\n".data
  if e.counts.isEmpty then
    head ++ "*This term was in your word list but not found in any documents.*\n".data
  else
    head ++ "## Occurrences\n\n".data
      ++ (e.counts.flatMap fun c =>
            "- ".data ++ createFileLink dataPath c.1 (stripPath c.1) ++ ": ".data
              ++ (Nat.repr c.2).data ++ "\n".data)

/-! ## Link well-formedness

A text is *well-formed* when it is an alternation of bracket-free plain
characters and complete links `[[content]]` with bracket-free content.  Raw
documents (no markup) are well-formed, and we show each `re.sub` pass of
`_replace_words` preserves well-formedness. -/

/-- No `[` or `]` occurs in `s`. -/
def noBr (s : Str) : Prop := ∀ c ∈ s, c ≠ '[' ∧ c ≠ ']'

instance (s : Str) : Decidable (noBr s) := List.decidableBAll _ s

/-- Alternation of plain characters and complete `[[…]]` links. -/
inductive WF : Str → Prop
  | nil : WF []
  | cons (c : Char) (t : Str) : c ≠ '[' → c ≠ ']' → WF t → WF (c :: t)
  | link (C t : Str) : noBr C → WF t → WF ('[' :: '[' :: (C ++ ']' :: ']' :: t))

theorem WF_append {a b : Str} (ha : WF a) (hb : WF b) : WF (a ++ b) := by
  induction ha with
  | nil => simpa using hb
  | cons c t h1 h2 _ ih => exact WF.cons c _ h1 h2 ih
  | link C t hC _ ih =>
      have := WF.link C (t ++ b) hC ih
      simpa using this

theorem noBr_WF {m : Str} (hm : noBr m) : WF m := by
  induction m with
  | nil => exact WF.nil
  | cons c t ih =>
      exact WF.cons c t (hm c (by simp)).1 (hm c (by simp)).2
        (ih fun x hx => hm x (by simp [hx]))

theorem noBr_append {a b : Str} (ha : noBr a) (hb : noBr b) : noBr (a ++ b) := by
  intro c hc
  rcases List.mem_append.mp hc with h | h
  · exact ha c h
  · exact hb c h

/-- Dropping a bracket-free prefix of a well-formed text leaves it
well-formed. -/
theorem WF_drop_of_noBr_take {b : Str} (hb : WF b) :
    ∀ k, noBr (b.take k) → WF (b.drop k) := by
  induction hb with
  | nil => intro k _; simp; exact WF.nil
  | cons c t h1 h2 ht ih =>
      intro k hk
      match k with
      | 0 => simpa using WF.cons c t h1 h2 ht
      | k + 1 =>
          simp only [List.take_succ_cons] at hk
          exact ih k fun x hx => hk x (by simp [hx])
  | link C t hC ht _ =>
      intro k hk
      match k with
      | 0 => simpa using WF.link C t hC ht
      | k + 1 =>
          exfalso
          have : '[' ∈ ('[' :: '[' :: (C ++ ']' :: ']' :: t)).take (k + 1) := by
            simp
          exact (hk '[' this).1 rfl

/-! ### ASCII lower-casing fixes brackets -/

theorem lowerChar_bracket_open {c : Char} (h : lowerChar c = '[') : c = '[' := by
  unfold lowerChar at h
  split at h
  · rename_i hr
    exfalso
    obtain ⟨k, hk⟩ : ∃ k, c.toNat = k := ⟨_, rfl⟩
    rw [hk] at hr h
    obtain ⟨h1, h2⟩ := hr
    interval_cases k <;> exact absurd h (by decide)
  · exact h

theorem lowerChar_bracket_close {c : Char} (h : lowerChar c = ']') : c = ']' := by
  unfold lowerChar at h
  split at h
  · rename_i hr
    exfalso
    obtain ⟨k, hk⟩ : ∃ k, c.toNat = k := ⟨_, rfl⟩
    rw [hk] at hr h
    obtain ⟨h1, h2⟩ := hr
    interval_cases k <;> exact absurd h (by decide)
  · exact h

/-- A string with the same ASCII-lower-casing as a bracket-free string is
bracket-free. -/
theorem noBr_of_lowerStr_eq {s p : Str} (h : lowerStr s = lowerStr p)
    (hp : noBr p) : noBr s := by
  intro c hc
  have hmem : lowerChar c ∈ lowerStr p := h ▸ List.mem_map_of_mem lowerChar hc
  rcases List.mem_map.mp hmem with ⟨d, hd, hde⟩
  constructor
  · intro hcb
    subst hcb
    have : lowerChar d = '[' := by rw [hde]; decide
    exact (hp d hd).1 (lowerChar_bracket_open this)
  · intro hcb
    subst hcb
    have : lowerChar d = ']' := by rw [hde]; decide
    exact (hp d hd).2 (lowerChar_bracket_close this)

/-! ### `chAt` and `slice` toolbox -/

theorem chAt_append_left {a b : Str} {i : Nat} (h : i < a.length) :
    chAt (a ++ b) i = chAt a i := List.getD_append a b ' ' i h

theorem chAt_append_right {a b : Str} {i : Nat} (h : a.length ≤ i) :
    chAt (a ++ b) i = chAt b (i - a.length) := List.getD_append_right a b ' ' i h

theorem chAt_cons_zero {c : Char} {t : Str} : chAt (c :: t) 0 = c := rfl

theorem chAt_cons_succ {c : Char} {t : Str} {j : Nat} :
    chAt (c :: t) (j + 1) = chAt t j := rfl

theorem chAt_mem {t : Str} {j : Nat} (h : j < t.length) : chAt t j ∈ t := by
  rw [chAt, List.getD_eq_getElem t ' ' h]
  exact List.getElem_mem h

theorem slice_self {t : Str} {a : Nat} : slice t a a = [] := by
  simp [slice]

theorem slice_cons {t : Str} {a b : Nat} (ha : a < t.length) (hab : a < b) :
    slice t a b = chAt t a :: slice t (a + 1) b := by
  unfold slice
  rw [List.drop_eq_getElem_cons ha]
  have : b - a = (b - (a + 1)) + 1 := by omega
  rw [this, List.take_succ_cons, chAt, List.getD_eq_getElem t ' ' ha]

theorem slice_glue {t : Str} {a b c : Nat} (hab : a ≤ b) (hbc : b ≤ c) :
    slice t a b ++ slice t b c = slice t a c := by
  unfold slice
  have h1 : c - a = (b - a) + (c - b) := by omega
  have h2 : a + (b - a) = b := by omega
  rw [h1, List.take_add, List.drop_drop, h2]

theorem length_slice {t : Str} {a b : Nat} (hb : b ≤ t.length) :
    (slice t a b).length = b - a := by
  simp [slice]
  omega

theorem slice_drop_left {a b : Str} : slice (a ++ b) a.length (a.length + b.length) = b := by
  unfold slice
  rw [List.drop_left]
  simp

theorem chAt_slice {t : Str} {a b j : Nat} (hj : j < b - a) :
    chAt (slice t a b) j = chAt t (a + j) := by
  unfold slice chAt
  rw [List.getD_eq_getElem?_getD, List.getD_eq_getElem?_getD]
  rw [List.getElem?_take_of_lt hj, List.getElem?_drop]

theorem mem_slice_of_range {t : Str} {a b j : Nat} (h1 : a ≤ j) (h2 : j < b)
    (hb : b ≤ t.length) : chAt t j ∈ slice t a b := by
  have : chAt (slice t a b) (j - a) = chAt t j := by
    rw [chAt_slice (by omega)]
    congr 1
    omega
  rw [← this]
  apply chAt_mem
  rw [length_slice hb]
  omega

/-! ### Specifications of the scanning primitives -/

theorem findLast_some {P : Nat → Bool} :
    ∀ {n j}, findLast P n = some j → P j = true ∧ j < n := by
  intro n
  induction n with
  | zero => intro j h; exact absurd h (by simp [findLast])
  | succ n ih =>
      intro j h
      rw [findLast] at h
      split at h
      · obtain rfl : n = j := by simpa using h
        exact ⟨by assumption, by omega⟩
      · have := ih h
        exact ⟨this.1, by omega⟩

theorem findLast_eq_some {P : Nat → Bool} :
    ∀ {n j}, j < n → P j = true →
      (∀ k, j < k → k < n → P k = false) → findLast P n = some j := by
  intro n
  induction n with
  | zero => intro j h; omega
  | succ n ih =>
      intro j hj hP hmax
      rw [findLast]
      rcases Nat.lt_succ_iff_lt_or_eq.mp hj with h | rfl
      · rw [if_neg (by simp [hmax n h (by omega)])]
        exact ih h hP fun k h1 h2 => hmax k h1 (by omega)
      · rw [if_pos hP]

theorem anyBelow_of_lt {P : Nat → Bool} {j : Nat} :
    ∀ {n}, j < n → P j = true → anyBelow P n = true := by
  intro n
  induction n with
  | zero => omega
  | succ n ih =>
      intro hj hP
      rw [anyBelow]
      rcases Nat.lt_succ_iff_lt_or_eq.mp hj with h | rfl
      · simp [ih h hP]
      · simp [hP]

theorem exists_of_anyBelow {P : Nat → Bool} :
    ∀ {n}, anyBelow P n = true → ∃ j, j < n ∧ P j = true := by
  intro n
  induction n with
  | zero => intro h; exact absurd h (by simp [anyBelow])
  | succ n ih =>
      intro h
      rw [anyBelow] at h
      rcases Bool.or_eq_true_iff.mp h with h | h
      · exact ⟨n, by omega, h⟩
      · obtain ⟨j, h1, h2⟩ := ih h
        exact ⟨j, by omega, h2⟩

/-! ### Openers inside a well-formed text are closed inside it -/

/-- In a well-formed text, any `[[` occurrence is followed by a `]]`
occurrence lying entirely within the text. -/
theorem opener_closed {a : Str} (ha : WF a) :
    ∀ j, chAt a j = '[' → chAt a (j + 1) = '[' → j + 2 ≤ a.length →
      ∃ k, j < k ∧ k + 2 ≤ a.length ∧ chAt a k = ']' ∧ chAt a (k + 1) = ']' := by
  induction ha with
  | nil => intro j _ _ h; simp at h
  | cons c t h1 h2 ht ih =>
      intro j hj1 hj2 hjb
      match j with
      | 0 => exact absurd hj1 h1
      | j + 1 =>
          rw [chAt_cons_succ] at hj1 hj2
          obtain ⟨k, hk1, hk2, hk3, hk4⟩ := ih j hj1 hj2 (by simp at hjb ⊢; omega)
          exact ⟨k + 1, by omega, by simp; omega, hk3, hk4⟩
  | link C t hC ht ih =>
      intro j hj1 hj2 hjb
      have hlen : ('[' :: '[' :: (C ++ ']' :: ']' :: t)).length
          = C.length + 4 + t.length := by simp; omega
      match j with
      | 0 =>
          refine ⟨C.length + 2, by omega, by omega, ?_, ?_⟩
          · show chAt (C ++ ']' :: ']' :: t) C.length = ']'
            rw [chAt_append_right le_rfl]
            simp [chAt]
          · show chAt (C ++ ']' :: ']' :: t) (C.length + 1) = ']'
            rw [chAt_append_right (by omega)]
            have : C.length + 1 - C.length = 1 := by omega
            rw [this]
            rfl
      | 1 =>
          exfalso
          rw [chAt_cons_succ, chAt_cons_succ] at hj2
          match C, hC with
          | [], _ => simp [chAt] at hj2
          | c :: C', hC =>
              have hj2' : c = '[' := hj2
              exact (hC c (by simp)).1 hj2' 
      | j + 2 =>
          rw [chAt_cons_succ, chAt_cons_succ] at hj1 hj2
          by_cases hjC : j < C.length
          · exfalso
            rw [chAt_append_left hjC] at hj1
            exact (hC _ (chAt_mem hjC)).1 hj1
          · by_cases hjC2 : j < C.length + 2
            · exfalso
              rw [chAt_append_right (by omega)] at hj1
              have h01 : j - C.length = 0 ∨ j - C.length = 1 := by omega
              rcases h01 with h01 | h01 <;> rw [h01] at hj1 <;> simp [chAt] at hj1
            · have hj1' : chAt t (j - (C.length + 2)) = '[' := by
                rw [chAt_append_right (by omega)] at hj1
                have : j - C.length = (j - (C.length + 2)) + 2 := by omega
                rwa [this, chAt_cons_succ, chAt_cons_succ] at hj1
              have hj2' : chAt t (j - (C.length + 2) + 1) = '[' := by
                rw [chAt_append_right (by omega)] at hj2
                have : j + 1 - C.length = (j - (C.length + 2) + 1) + 2 := by omega
                rwa [this, chAt_cons_succ, chAt_cons_succ] at hj2
              rw [hlen] at hjb
              obtain ⟨k, hk1, hk2, hk3, hk4⟩ :=
                ih (j - (C.length + 2)) hj1' hj2' (by omega)
              refine ⟨k + C.length + 4, by omega, by rw [hlen]; omega, ?_, ?_⟩
              · show chAt (C ++ ']' :: ']' :: t) (k + C.length + 2) = ']'
                rw [chAt_append_right (by omega)]
                have : k + C.length + 2 - C.length = k + 2 := by omega
                rw [this, chAt_cons_succ, chAt_cons_succ]
                exact hk3
              · show chAt (C ++ ']' :: ']' :: t) (k + C.length + 3) = ']'
                rw [chAt_append_right (by omega)]
                have : k + C.length + 3 - C.length = (k + 1) + 2 := by omega
                rw [this, chAt_cons_succ, chAt_cons_succ]
                exact hk4

/-! ### Characterising the replacer's inside-a-link test -/

/-- The link segment `[[C]] ++ t`. -/
def lk (C t : Str) : Str := '[' :: '[' :: (C ++ ']' :: ']' :: t)

theorem length_lk {A C t : Str} :
    (A ++ lk C t).length = A.length + C.length + 4 + t.length := by
  simp [lk]
  omega

theorem chAt_lk_open0 {A C t : Str} : chAt (A ++ lk C t) A.length = '[' := by
  rw [chAt_append_right le_rfl, Nat.sub_self]
  rfl

theorem chAt_lk_open1 {A C t : Str} : chAt (A ++ lk C t) (A.length + 1) = '[' := by
  rw [chAt_append_right (by omega)]
  have : A.length + 1 - A.length = 1 := by omega
  rw [this]
  rfl

theorem chAt_lk_content {A C t : Str} {j : Nat} (hj : j < C.length) :
    chAt (A ++ lk C t) (A.length + 2 + j) = chAt C j := by
  rw [chAt_append_right (by omega)]
  have : A.length + 2 + j - A.length = j + 2 := by omega
  rw [this]
  show chAt (C ++ ']' :: ']' :: t) j = chAt C j
  exact chAt_append_left hj

theorem chAt_lk_close0 {A C t : Str} :
    chAt (A ++ lk C t) (A.length + 2 + C.length) = ']' := by
  rw [chAt_append_right (by omega)]
  have : A.length + 2 + C.length - A.length = C.length + 2 := by omega
  rw [this]
  show chAt (C ++ ']' :: ']' :: t) C.length = ']'
  rw [chAt_append_right le_rfl, Nat.sub_self]
  rfl

theorem chAt_lk_close1 {A C t : Str} :
    chAt (A ++ lk C t) (A.length + 3 + C.length) = ']' := by
  rw [chAt_append_right (by omega)]
  have : A.length + 3 + C.length - A.length = C.length + 3 := by omega
  rw [this]
  show chAt (C ++ ']' :: ']' :: t) (C.length + 1) = ']'
  rw [chAt_append_right (by omega)]
  have : C.length + 1 - C.length = 1 := by omega
  rw [this]
  rfl

/-- At a position cut cleanly after a well-formed prefix, the replacer's
backward scan always finds either no `[[` at all or one that is already
closed, so the inside-a-link test is negative and a match there is
substituted. -/
theorem insideLink_false_at_cut {A B : Str} (hA : WF A) (e : Nat) :
    insideLink (A ++ B) A.length e = false := by
  rcases hfl : findLast
      (fun j => chAt (A ++ B) j == '[' && chAt (A ++ B) (j + 1) == '[')
      (A.length - 1) with _ | lo
  · simp [insideLink, hfl]
  · obtain ⟨hP, hlt⟩ := findLast_some hfl
    obtain ⟨hP1, hP2⟩ := Bool.and_eq_true_iff.mp hP
    have hlo1 : lo + 1 < A.length := by omega
    have h1 : chAt A lo = '[' := by
      rw [← chAt_append_left (b := B) (by omega)]
      exact beq_iff_eq.mp hP1
    have h2 : chAt A (lo + 1) = '[' := by
      rw [← chAt_append_left (b := B) hlo1]
      exact beq_iff_eq.mp hP2
    obtain ⟨k, hk1, hk2, hk3, hk4⟩ := opener_closed hA lo h1 h2 (by omega)
    have hany : anyBelow
        (fun j => decide (lo ≤ j) && decide (j + 2 ≤ A.length)
          && (chAt (A ++ B) j == ']' && chAt (A ++ B) (j + 1) == ']'))
        A.length = true := by
      refine anyBelow_of_lt (j := k) (by omega) ?_
      have hc1 : chAt (A ++ B) k = ']' := by
        rw [chAt_append_left (by omega)]; exact hk3
      have hc2 : chAt (A ++ B) (k + 1) = ']' := by
        rw [chAt_append_left (by omega)]; exact hk4
      simp [hc1, hc2]
      omega
    simp only [insideLink, hfl, hany]
    simp

/-- Inside the content of a link that sits right after the prefix `A`, the
inside-a-link test is positive and a match there is left untouched. -/
theorem insideLink_true_in_content {A C t : Str} (hC : noBr C) {s e : Nat}
    (hs : A.length + 2 ≤ s) (hse : s ≤ e) (he : e ≤ A.length + 2 + C.length) :
    insideLink (A ++ lk C t) s e = true := by
  have hfl : findLast
      (fun j => chAt (A ++ lk C t) j == '[' && chAt (A ++ lk C t) (j + 1) == '[')
      (s - 1) = some A.length := by
    refine findLast_eq_some (by omega) (by simp [chAt_lk_open0, chAt_lk_open1]) ?_
    intro k hk1 hk2
    by_cases hka : k = A.length + 1
    · subst hka
      have hC0 : 0 < C.length := by omega
      have : chAt (A ++ lk C t) (A.length + 1 + 1) = chAt C 0 := by
        have h20 : A.length + 1 + 1 = A.length + 2 + 0 := by omega
        rw [h20, chAt_lk_content hC0]
      rw [Bool.and_eq_false_iff]
      right
      rw [beq_eq_false_iff_ne, this]
      exact (hC _ (chAt_mem hC0)).1
    · have hk3 : A.length + 2 ≤ k := by omega
      have hjC : k - A.length - 2 < C.length := by omega
      have : chAt (A ++ lk C t) k = chAt C (k - A.length - 2) := by
        have hc := chAt_lk_content (A := A) (t := t) hjC
        have hk4 : A.length + 2 + (k - A.length - 2) = k := by omega
        rwa [hk4] at hc
      rw [Bool.and_eq_false_iff]
      left
      rw [beq_eq_false_iff_ne, this]
      exact (hC _ (chAt_mem hjC)).1
  have hnone : anyBelow
      (fun j => decide (A.length ≤ j) && decide (j + 2 ≤ s)
        && (chAt (A ++ lk C t) j == ']' && chAt (A ++ lk C t) (j + 1) == ']'))
      s = false := by
    by_contra h
    rw [Bool.not_eq_false] at h
    obtain ⟨j, hj, hPj⟩ := exists_of_anyBelow h
    obtain ⟨hr, hcl⟩ := Bool.and_eq_true_iff.mp hPj
    obtain ⟨hr1, hr2⟩ := Bool.and_eq_true_iff.mp hr
    have hr1' : A.length ≤ j := of_decide_eq_true hr1
    have hr2' : j + 2 ≤ s := of_decide_eq_true hr2
    have hcl1 : chAt (A ++ lk C t) j = ']' := beq_iff_eq.mp (Bool.and_eq_true_iff.mp hcl).1
    rcases Nat.lt_or_ge j (A.length + 2) with hja | hja
    · rcases Nat.lt_or_ge j (A.length + 1) with hja0 | hja0
      · obtain rfl : j = A.length := by omega
        rw [chAt_lk_open0] at hcl1
        exact absurd hcl1 (by decide)
      · obtain rfl : j = A.length + 1 := by omega
        rw [chAt_lk_open1] at hcl1
        exact absurd hcl1 (by decide)
    · have hjC : j - A.length - 2 < C.length := by omega
      have : chAt (A ++ lk C t) j = chAt C (j - A.length - 2) := by
        have hc := chAt_lk_content (A := A) (t := t) hjC
        have hk4 : A.length + 2 + (j - A.length - 2) = j := by omega
        rwa [hk4] at hc
      rw [this] at hcl1
      exact (hC _ (chAt_mem hjC)).2 hcl1
  have hafter : anyBelow
      (fun j => decide (e ≤ j)
        && (chAt (A ++ lk C t) j == ']' && chAt (A ++ lk C t) (j + 1) == ']'))
      (A ++ lk C t).length = true := by
    refine anyBelow_of_lt (j := A.length + 2 + C.length) (by rw [length_lk]; omega) ?_
    simp [chAt_lk_close0]
    constructor
    · omega
    · have h31 : A.length + 2 + C.length + 1 = A.length + 3 + C.length := by omega
      rw [h31, chAt_lk_close1]
  simp only [insideLink, hfl, hnone, hafter]
  simp

/-! ### The substitution pass preserves well-formedness -/

/-- The fuel argument of `reSubFromAux` is irrelevant once it is adequate. -/
theorem reSubFromAux_congr {t p wt lw : Str} :
    ∀ f₁ f₂ i, t.length + 1 - i ≤ f₁ → t.length + 1 - i ≤ f₂ →
      reSubFromAux t p wt lw f₁ i = reSubFromAux t p wt lw f₂ i := by
  intro f₁
  induction f₁ with
  | zero =>
      intro f₂ i h1 h2
      cases f₂ with
      | zero => rfl
      | succ f₂ =>
          rw [reSubFromAux, reSubFromAux, if_pos (by omega)]
  | succ f₁ ih =>
      intro f₂ i h1 h2
      cases f₂ with
      | zero =>
          rw [reSubFromAux, reSubFromAux, if_pos (by omega)]
      | succ f₂ =>
          rw [reSubFromAux, reSubFromAux]
          by_cases hstop : t.length ≤ i
          · rw [if_pos hstop, if_pos hstop]
          · rw [if_neg hstop, if_neg hstop]
            by_cases hm : 0 < p.length ∧ matchAt t p i = true
            · rw [if_pos hm, if_pos hm, ih f₂ (i + p.length) (by omega) (by omega)]
            · rw [if_neg hm, if_neg hm, ih f₂ (i + 1) (by omega) (by omega)]

theorem reSubFrom_stop {t p wt lw : Str} {i : Nat} (h : t.length ≤ i) :
    reSubFrom t p wt lw i = [] := by
  unfold reSubFrom
  cases hf : t.length + 1 - i with
  | zero => rw [reSubFromAux]
  | succ f => rw [reSubFromAux, if_pos h]

theorem reSubFrom_match {t p wt lw : Str} {i : Nat} (h : i < t.length)
    (h2 : 0 < p.length) (h3 : matchAt t p i = true) :
    reSubFrom t p wt lw i
      = replacerFn t wt lw i (i + p.length) ++ reSubFrom t p wt lw (i + p.length) := by
  unfold reSubFrom
  obtain ⟨f, hf⟩ : ∃ f, t.length + 1 - i = f + 1 := ⟨t.length - i, by omega⟩
  rw [hf, reSubFromAux, if_neg (by omega), if_pos ⟨h2, h3⟩,
    reSubFromAux_congr f (t.length + 1 - (i + p.length)) (i + p.length)
      (by omega) (by omega)]

theorem reSubFrom_step {t p wt lw : Str} {i : Nat} (h : i < t.length)
    (h2 : ¬(0 < p.length ∧ matchAt t p i = true)) :
    reSubFrom t p wt lw i = chAt t i :: reSubFrom t p wt lw (i + 1) := by
  unfold reSubFrom
  obtain ⟨f, hf⟩ : ∃ f, t.length + 1 - i = f + 1 := ⟨t.length - i, by omega⟩
  rw [hf, reSubFromAux, if_neg (by omega), if_neg h2,
    reSubFromAux_congr f (t.length + 1 - (i + 1)) (i + 1) (by omega) (by omega)]

theorem matchAt_bound {t p : Str} {i : Nat} (h : matchAt t p i = true) :
    i + p.length ≤ t.length := by
  unfold matchAt at h
  have := (Bool.and_eq_true_iff.mp (Bool.and_eq_true_iff.mp
    (Bool.and_eq_true_iff.mp h).1).1).1
  exact of_decide_eq_true this

theorem matchAt_noBr_slice {t p : Str} {i : Nat} (h : matchAt t p i = true)
    (hp : noBr p) : noBr (slice t i (i + p.length)) := by
  unfold matchAt at h
  have := (Bool.and_eq_true_iff.mp (Bool.and_eq_true_iff.mp
    (Bool.and_eq_true_iff.mp h).1).1).2
  exact noBr_of_lowerStr_eq (by simpa using this) hp

theorem slice_append_take {A B : Str} {m : Nat} :
    slice (A ++ B) A.length (A.length + m) = B.take m := by
  unfold slice
  rw [List.drop_left]
  simp

theorem noBr_cons {c : Char} {s : Str} (h1 : c ≠ '[') (h2 : c ≠ ']')
    (hs : noBr s) : noBr (c :: s) := by
  intro x hx
  rcases List.mem_cons.mp hx with rfl | hx
  · exact ⟨h1, h2⟩
  · exact hs x hx

theorem noBr_linkBody {wt lw matched : Str} (hwt : noBr wt) (hlw : noBr lw)
    (hm : noBr matched) :
    noBr ("ENTITY/".data ++ wt ++ '/' :: lw ++ '|' :: matched) := by
  refine noBr_append (noBr_append (noBr_append ?_ hwt)
    (noBr_cons ?_ ?_ hlw)) (noBr_cons ?_ ?_ hm) <;> decide

/-- A `re.sub` pass copies a link (and everything in it) verbatim: starting
anywhere inside the link segment that follows `A`, the output up to the end
of the link is the original text. -/
theorem reSubFrom_copy_link {A C t p wt lw : Str} (hC : noBr C) (hp : noBr p) :
    ∀ k, A.length ≤ k → k ≤ A.length + C.length + 4 →
      reSubFrom (A ++ lk C t) p wt lw k
        = slice (A ++ lk C t) k (A.length + C.length + 4)
          ++ reSubFrom (A ++ lk C t) p wt lw (A.length + C.length + 4) := by
  have hE : A.length + C.length + 4 ≤ (A ++ lk C t).length := by
    rw [length_lk]; omega
  have H : ∀ n k, A.length ≤ k → k ≤ A.length + C.length + 4 →
      A.length + C.length + 4 - k ≤ n →
      reSubFrom (A ++ lk C t) p wt lw k
        = slice (A ++ lk C t) k (A.length + C.length + 4)
          ++ reSubFrom (A ++ lk C t) p wt lw (A.length + C.length + 4) := by
    intro n
    induction n with
    | zero =>
        intro k hk1 hk2 hk0
        obtain rfl : k = A.length + C.length + 4 := by omega
        rw [slice_self]
        simp
    | succ n ih =>
        intro k hk1 hk2 hkn
        rcases Nat.eq_or_lt_of_le hk2 with rfl | hklt
        · rw [slice_self]; simp
        · have hklen : k < (A ++ lk C t).length := by omega
          by_cases hm : 0 < p.length ∧ matchAt (A ++ lk C t) p k = true
          · have hb := matchAt_bound hm.2
            have hsl := matchAt_noBr_slice hm.2 hp
            have hk2' : A.length + 2 ≤ k := by
              rcases Nat.lt_or_ge k (A.length + 2) with hk | hk
              · exfalso
                have hmem : chAt (A ++ lk C t) k
                    ∈ slice (A ++ lk C t) k (k + p.length) :=
                  mem_slice_of_range le_rfl (by omega) hb
                rcases Nat.lt_or_ge k (A.length + 1) with hk0 | hk0
                · obtain rfl : k = A.length := by omega
                  exact (hsl _ hmem).1 chAt_lk_open0
                · obtain rfl : k = A.length + 1 := by omega
                  exact (hsl _ hmem).1 chAt_lk_open1
              · exact hk
            have hkc : k < A.length + 2 + C.length := by
              rcases Nat.lt_or_ge k (A.length + 2 + C.length) with hk | hk
              · exact hk
              · exfalso
                have hmem : chAt (A ++ lk C t) k
                    ∈ slice (A ++ lk C t) k (k + p.length) :=
                  mem_slice_of_range le_rfl (by omega) hb
                rcases Nat.lt_or_ge k (A.length + 3 + C.length) with hk0 | hk0
                · obtain rfl : k = A.length + 2 + C.length := by omega
                  exact (hsl _ hmem).2 chAt_lk_close0
                · obtain rfl : k = A.length + 3 + C.length := by omega
                  exact (hsl _ hmem).2 chAt_lk_close1
            have hec : k + p.length ≤ A.length + 2 + C.length := by
              rcases Nat.lt_or_ge (A.length + 2 + C.length) (k + p.length) with he | he
              · exfalso
                have hmem : chAt (A ++ lk C t) (A.length + 2 + C.length)
                    ∈ slice (A ++ lk C t) k (k + p.length) :=
                  mem_slice_of_range (by omega) (by omega) hb
                exact (hsl _ hmem).2 chAt_lk_close0
              · exact he
            have hin : insideLink (A ++ lk C t) k (k + p.length) = true :=
              insideLink_true_in_content hC hk2' (by omega) hec
            rw [reSubFrom_match hklen hm.1 hm.2, replacerFn, if_pos hin]
            rw [ih (k + p.length) (by omega) (by omega) (by omega)]
            rw [← List.append_assoc,
              slice_glue (by omega) (by omega)]
          · rw [reSubFrom_step hklen hm]
            rw [ih (k + 1) (by omega) (by omega) (by omega)]
            rw [slice_cons hklen hklt]
            rfl
  intro k hk1 hk2
  exact H (A.length + C.length + 4 - k) k hk1 hk2 le_rfl

/-- The take of `lk C t` that is the whole link. -/
theorem take_lk {C t : Str} : (lk C t).take (C.length + 4) = lk C [] := by
  show ('[' :: '[' :: (C ++ ']' :: ']' :: t)).take (C.length + 4)
      = '[' :: '[' :: (C ++ ']' :: ']' :: ([] : Str))
  rw [show C.length + 4 = ((C.length + 2) + 1) + 1 from by omega,
    List.take_succ_cons, List.take_succ_cons, List.take_append 2]
  rfl

/-- Each `re.sub` pass of `_replace_words` preserves link well-formedness,
provided the pattern and the inserted target pieces are bracket-free. -/
theorem WF_reSubFrom {p wt lw : Str} (hp : noBr p) (hwt : noBr wt)
    (hlw : noBr lw) :
    ∀ n (A B : Str), B.length ≤ n → WF A → WF B →
      WF (reSubFrom (A ++ B) p wt lw A.length) := by
  intro n
  induction n with
  | zero =>
      intro A B hB hA hBwf
      obtain rfl : B = [] := List.length_eq_zero.mp (by omega)
      rw [reSubFrom_stop (by simp)]
      exact WF.nil
  | succ n ih =>
      intro A B hBn hA hBwf
      cases hBwf with
      | nil =>
          rw [reSubFrom_stop (by simp)]
          exact WF.nil
      | cons c t' h1 h2 ht' =>
          have hlen : A.length < (A ++ c :: t').length := by simp
          by_cases hm : 0 < p.length ∧ matchAt (A ++ c :: t') p A.length = true
          · obtain ⟨hp1, hm2⟩ := hm
            have hb := matchAt_bound hm2
            have hple : p.length ≤ (c :: t').length := by
              rw [List.length_append] at hb; omega
            have hsl := matchAt_noBr_slice hm2 hp
            have hmatched : slice (A ++ c :: t') A.length (A.length + p.length)
                = (c :: t').take p.length := slice_append_take
            rw [reSubFrom_match hlen hp1 hm2, replacerFn,
              if_neg (by rw [insideLink_false_at_cut hA]; simp), linkInsert, hmatched]
            have hrest : WF (reSubFrom (A ++ c :: t') p wt lw (A.length + p.length)) := by
              have hdecomp : (A ++ (c :: t').take p.length) ++ (c :: t').drop p.length
                  = A ++ c :: t' := by
                rw [List.append_assoc, List.take_append_drop]
              have hlenA : (A ++ (c :: t').take p.length).length = A.length + p.length := by
                rw [List.length_append, List.length_take, Nat.min_eq_left hple]
              have hlenB : ((c :: t').drop p.length).length ≤ n := by
                rw [List.length_drop]
                have := hBn
                rw [List.length_cons] at this ⊢
                omega
              have := ih (A ++ (c :: t').take p.length) ((c :: t').drop p.length)
                hlenB
                (WF_append hA (noBr_WF (by rw [← hmatched]; exact hsl)))
                (WF_drop_of_noBr_take (WF.cons c t' h1 h2 ht') p.length
                  (by rw [← hmatched]; exact hsl))
              rwa [hdecomp, hlenA] at this
            have hshape :
                ('[' :: '[' :: ("ENTITY/".data ++ wt ++ '/' :: lw ++ '|'
                    :: (c :: t').take p.length) ++ [']', ']'])
                  ++ reSubFrom (A ++ c :: t') p wt lw (A.length + p.length)
                = '[' :: '[' :: (("ENTITY/".data ++ wt ++ '/' :: lw ++ '|'
                    :: (c :: t').take p.length)
                  ++ ']' :: ']' :: reSubFrom (A ++ c :: t') p wt lw (A.length + p.length)) := by
              simp
            rw [hshape]
            exact WF.link _ _
              (noBr_linkBody hwt hlw (by rw [← hmatched]; exact hsl)) hrest
          · rw [reSubFrom_step hlen hm]
            have hc : chAt (A ++ c :: t') A.length = c := by
              rw [chAt_append_right le_rfl, Nat.sub_self]
              rfl
            rw [hc]
            refine WF.cons c _ h1 h2 ?_
            have hdecomp : (A ++ [c]) ++ t' = A ++ c :: t' := by simp
            have hlenA : (A ++ [c]).length = A.length + 1 := by simp
            have := ih (A ++ [c]) t' (by simp at hBn ⊢; omega)
              (WF_append hA (WF.cons c [] h1 h2 WF.nil)) ht'
            rwa [hdecomp, hlenA] at this
      | link C t' hC ht' =>
          show WF (reSubFrom (A ++ lk C t') p wt lw A.length)
          rw [reSubFrom_copy_link hC hp A.length le_rfl (by omega)]
          have hslice : slice (A ++ lk C t') A.length (A.length + C.length + 4)
              = lk C [] := by
            rw [show A.length + C.length + 4 = A.length + (C.length + 4) from by omega,
              slice_append_take, take_lk]
          rw [hslice]
          have hrest : WF (reSubFrom (A ++ lk C t') p wt lw (A.length + C.length + 4)) := by
            have hdecomp : (A ++ lk C []) ++ t' = A ++ lk C t' := by
              simp [lk]
            have hlenA : (A ++ lk C []).length = A.length + C.length + 4 := by
              simp [lk]
              omega
            have := ih (A ++ lk C []) t'
              (by simp [lk] at hBn ⊢; omega)
              (WF_append hA (WF.link C [] hC WF.nil)) ht'
            rwa [hdecomp, hlenA] at this
          have hshape : lk C [] ++ reSubFrom (A ++ lk C t') p wt lw (A.length + C.length + 4)
              = '[' :: '[' :: (C ++ ']' :: ']'
                  :: reSubFrom (A ++ lk C t') p wt lw (A.length + C.length + 4)) := by
            simp [lk]
          rw [hshape]
          exact WF.link _ _ hC hrest

/-- One `re.sub` pass preserves well-formedness. -/
theorem WF_reSub {t p wt lw : Str} (ht : WF t) (hp : noBr p) (hwt : noBr wt)
    (hlw : noBr lw) : WF (reSub t p wt lw) := by
  have := WF_reSubFrom hp hwt hlw t.length [] t le_rfl WF.nil ht
  simpa [reSub] using this

/-! ### The left-to-right scanning property of the spec -/

/-- Left-to-right scan: outside a link, `[[` opens one; inside a link,
another `[[` before the closing `]]` is an error; at the end of the text an
unclosed link is an error.  `scanOk` is the spec's "every `[[` has a
matching `]]` before the next `[[`" property, and accepted texts have
pairwise disjoint link spans. -/
def scanOkAux : Bool → Str → Bool
  | inside, [] => !inside
  | inside, [_] => !inside
  | inside, c₁ :: c₂ :: rest =>
    if c₁ = '[' ∧ c₂ = '[' then !inside && scanOkAux true rest
    else if c₁ = ']' ∧ c₂ = ']' then scanOkAux false rest
    else scanOkAux inside (c₂ :: rest)

/-- The scanning property, started outside any link. -/
def scanOk (t : Str) : Bool := scanOkAux false t

theorem scanOkAux_nil {b : Bool} : scanOkAux b [] = !b := rfl

theorem scanOkAux_open {b : Bool} {r : Str} :
    scanOkAux b ('[' :: '[' :: r) = (!b && scanOkAux true r) := by
  rw [scanOkAux, if_pos ⟨rfl, rfl⟩]

theorem scanOkAux_close {b : Bool} {r : Str} :
    scanOkAux b (']' :: ']' :: r) = scanOkAux false r := by
  rw [scanOkAux, if_neg (by simp), if_pos ⟨rfl, rfl⟩]

theorem scanOkAux_other {b : Bool} {c : Char} {r : Str} (h1 : c ≠ '[')
    (h2 : c ≠ ']') : scanOkAux b (c :: r) = scanOkAux b r := by
  cases r with
  | nil => rfl
  | cons c₂ r₂ =>
      rw [scanOkAux, if_neg (by simp [h1]), if_neg (by simp [h2])]

theorem scanOkAux_append_noBr {m : Str} (hm : noBr m) :
    ∀ b r, scanOkAux b (m ++ r) = scanOkAux b r := by
  induction m with
  | nil => intro b r; rfl
  | cons c m' ih =>
      intro b r
      have hc := hm c (by simp)
      rw [List.cons_append, scanOkAux_other hc.1 hc.2]
      exact ih (fun x hx => hm x (by simp [hx])) b r

/-- Well-formed texts pass the left-to-right scan. -/
theorem scanOk_of_WF {t : Str} (ht : WF t) : scanOk t = true := by
  unfold scanOk
  induction ht with
  | nil => rw [scanOkAux_nil]; rfl
  | cons c t h1 h2 _ ih => rw [scanOkAux_other h1 h2]; exact ih
  | link C t hC _ ih =>
      rw [scanOkAux_open, scanOkAux_append_noBr hC, scanOkAux_close]
      simpa using ih

/-! ### Bracket-freeness of the derived patterns -/

theorem noBr_underscoreToSpace {w : Str} (hw : noBr w) :
    noBr (underscoreToSpace w) := by
  intro c hc
  rcases List.mem_map.mp hc with ⟨d, hd, hde⟩
  by_cases hdu : d == '_'
  · simp [hdu] at hde
    subst hde
    exact ⟨by decide, by decide⟩
  · simp [hdu] at hde
    subst hde
    exact hw d hd

theorem noBr_allPatterns {w : Str} (hw : noBr w) :
    ∀ p ∈ allPatterns w, noBr p := by
  intro p hp
  unfold allPatterns at hp
  rcases List.mem_append.mp hp with h | h
  · split at h <;> simp at h
    · rcases h with rfl | rfl <;> exact noBr_underscoreToSpace hw
    · subst h; exact hw
  · rcases List.mem_flatMap.mp h with ⟨q, hq, hpq⟩
    have hqn : noBr q := by
      split at hq <;> simp at hq
      · rcases hq with rfl | rfl <;> exact noBr_underscoreToSpace hw
      · subst hq; exact hw
    simp at hpq
    rcases hpq with rfl | rfl
    · exact noBr_append hqn (by decide)
    · exact noBr_append hqn (by decide)

/-- The pass `_replace_words` preserves well-formedness when the key and the type tag
are bracket-free. -/
theorem WF_replaceWords {d : Dict} {text word wordType file : Str}
    (ht : WF text) (hw : noBr word) (hwt : noBr wordType) :
    WF (replaceWords d text word wordType file) := by
  unfold replaceWords
  split
  · have H : ∀ (ps : List Str) (t : Str), (∀ p ∈ ps, noBr p) → WF t →
        WF (ps.foldl (fun t p => reSub t p wordType word) t) := by
      intro ps
      induction ps with
      | nil => intro t _ ht; exact ht
      | cons q ps ih =>
          intro t hps ht
          rw [List.foldl_cons]
          exact ih _ (fun p hp => hps p (by simp [hp]))
            (WF_reSub ht (hps q (by simp)) hwt hw)
    exact H _ text (noBr_allPatterns hw) ht
  · exact ht

/-- The whole per-document rewrite loop of `generate` preserves
well-formedness when every dictionary key and type tag is bracket-free. -/
theorem WF_rewriteFile {d : Dict} {minSources minCount : Nat} {file text : Str}
    (ht : WF text) (hd : ∀ kv ∈ d, noBr kv.1 ∧ noBr kv.2.type_) :
    WF (rewriteFile d minSources minCount file text) := by
  unfold rewriteFile
  have H : ∀ (l : Dict) (t : Str), (∀ kv ∈ l, noBr kv.1 ∧ noBr kv.2.type_) → WF t →
      WF (l.foldl
        (fun t kv =>
          if published kv.2 minSources minCount then
            replaceWords d t kv.1 kv.2.type_ file
          else t) t) := by
    intro l
    induction l with
    | nil => intro t _ ht; exact ht
    | cons kv l ih =>
        intro t hl ht
        rw [List.foldl_cons]
        refine ih _ (fun x hx => hl x (by simp [hx])) ?_
        split
        · exact WF_replaceWords ht (hl kv (by simp)).1 (hl kv (by simp)).2
        · exact ht
  exact H d text hd ht

/-! ### Link contents are monotone: substitution never touches an existing
link -/

/-- Collect the contents of the `[[…]]` spans of a text, left to right.
`none` is the outside-a-link state; `some acc` holds the reversed content
read so far inside a link. -/
def lcAux : Option Str → Str → List Str
  | none, [] => []
  | some acc, [] => [acc.reverse]
  | none, [_] => []
  | some acc, [c] => [(c :: acc).reverse]
  | none, c₁ :: c₂ :: rest =>
    if c₁ = '[' ∧ c₂ = '[' then lcAux (some []) rest
    else lcAux none (c₂ :: rest)
  | some acc, c₁ :: c₂ :: rest =>
    if c₁ = ']' ∧ c₂ = ']' then acc.reverse :: lcAux none rest
    else lcAux (some (c₁ :: acc)) (c₂ :: rest)

/-- The list of link contents of a text. -/
def linkContents (t : Str) : List Str := lcAux none t

theorem lcAux_open {r : Str} : lcAux none ('[' :: '[' :: r) = lcAux (some []) r := by
  rw [lcAux, if_pos ⟨rfl, rfl⟩]

theorem lcAux_out_other {c : Char} {r : Str} (h1 : c ≠ '[') :
    lcAux none (c :: r) = lcAux none r := by
  cases r with
  | nil => rfl
  | cons c₂ r₂ =>
      rw [lcAux, if_neg (by simp [h1])]

theorem lcAux_in_close {acc : Str} {r : Str} :
    lcAux (some acc) (']' :: ']' :: r) = acc.reverse :: lcAux none r := by
  rw [lcAux, if_pos ⟨rfl, rfl⟩]

theorem lcAux_in_other {acc : Str} {c : Char} {r : Str} (h1 : c ≠ ']') :
    lcAux (some acc) (c :: r) = lcAux (some (c :: acc)) r := by
  cases r with
  | nil => rfl
  | cons c₂ r₂ =>
      rw [lcAux, if_neg (by simp [h1])]

theorem lcAux_append_noBr {m : Str} (hm : noBr m) :
    ∀ r, lcAux none (m ++ r) = lcAux none r := by
  induction m with
  | nil => intro r; rfl
  | cons c m' ih =>
      intro r
      rw [List.cons_append, lcAux_out_other (hm c (by simp)).1]
      exact ih (fun x hx => hm x (by simp [hx])) r

theorem lcAux_in_content {C : Str} (hC : noBr C) :
    ∀ (acc r : Str), lcAux (some acc) (C ++ ']' :: ']' :: r)
      = (acc.reverse ++ C) :: lcAux none r := by
  induction C with
  | nil => intro acc r; simpa using lcAux_in_close
  | cons c C' ih =>
      intro acc r
      rw [List.cons_append, lcAux_in_other (hC c (by simp)).2,
        ih (fun x hx => hC x (by simp [hx]))]
      simp

theorem lcAux_link {C : Str} (hC : noBr C) (r : Str) :
    lcAux none (lk C r) = C :: lcAux none r := by
  unfold lk
  rw [lcAux_open, lcAux_in_content hC]
  simp

/-- A `re.sub` pass preserves every existing link content, in order: the
old contents form a sublist of the new ones. -/
theorem lcAux_mono_reSubFrom {p wt lw : Str} (hp : noBr p) (hwt : noBr wt)
    (hlw : noBr lw) :
    ∀ n (A B : Str), B.length ≤ n → WF A → WF B →
      List.Sublist (lcAux none B)
        (lcAux none (reSubFrom (A ++ B) p wt lw A.length)) := by
  intro n
  induction n with
  | zero =>
      intro A B hB _ _
      obtain rfl : B = [] := List.length_eq_zero.mp (by omega)
      rw [reSubFrom_stop (by simp)]
  | succ n ih =>
      intro A B hBn hA hBwf
      cases hBwf with
      | nil =>
          rw [reSubFrom_stop (by simp)]
      | cons c t' h1 h2 ht' =>
          have hlen : A.length < (A ++ c :: t').length := by simp
          by_cases hm : 0 < p.length ∧ matchAt (A ++ c :: t') p A.length = true
          · obtain ⟨hp1, hm2⟩ := hm
            have hb := matchAt_bound hm2
            have hple : p.length ≤ (c :: t').length := by
              rw [List.length_append] at hb; omega
            have hsl := matchAt_noBr_slice hm2 hp
            have hmatched : slice (A ++ c :: t') A.length (A.length + p.length)
                = (c :: t').take p.length := slice_append_take
            have hslnb : noBr ((c :: t').take p.length) := by
              rw [← hmatched]; exact hsl
            rw [reSubFrom_match hlen hp1 hm2, replacerFn,
              if_neg (by rw [insideLink_false_at_cut hA]; simp), linkInsert, hmatched]
            have hLHS : lcAux none (c :: t')
                = lcAux none ((c :: t').drop p.length) := by
              conv_lhs => rw [← List.take_append_drop p.length (c :: t')]
              exact lcAux_append_noBr hslnb _
            have hshape :
                ('[' :: '[' :: ("ENTITY/".data ++ wt ++ '/' :: lw ++ '|'
                    :: (c :: t').take p.length) ++ [']', ']'])
                  ++ reSubFrom (A ++ c :: t') p wt lw (A.length + p.length)
                = lk ("ENTITY/".data ++ wt ++ '/' :: lw ++ '|'
                    :: (c :: t').take p.length)
                  (reSubFrom (A ++ c :: t') p wt lw (A.length + p.length)) := by
              simp [lk]
            rw [hshape, lcAux_link (noBr_linkBody hwt hlw hslnb), hLHS]
            refine List.Sublist.cons _ ?_
            have hdecomp : (A ++ (c :: t').take p.length) ++ (c :: t').drop p.length
                = A ++ c :: t' := by
              rw [List.append_assoc, List.take_append_drop]
            have hlenA : (A ++ (c :: t').take p.length).length = A.length + p.length := by
              rw [List.length_append, List.length_take, Nat.min_eq_left hple]
            have hlenB : ((c :: t').drop p.length).length ≤ n := by
              rw [List.length_drop]
              rw [List.length_cons] at hBn ⊢
              omega
            have := ih (A ++ (c :: t').take p.length) ((c :: t').drop p.length)
              hlenB (WF_append hA (noBr_WF hslnb))
              (WF_drop_of_noBr_take (WF.cons c t' h1 h2 ht') p.length hslnb)
            rwa [hdecomp, hlenA] at this
          · rw [reSubFrom_step hlen hm]
            have hc : chAt (A ++ c :: t') A.length = c := by
              rw [chAt_append_right le_rfl, Nat.sub_self]
              rfl
            rw [hc, lcAux_out_other h1, lcAux_out_other h1]
            have hdecomp : (A ++ [c]) ++ t' = A ++ c :: t' := by simp
            have hlenA : (A ++ [c]).length = A.length + 1 := by simp
            have := ih (A ++ [c]) t' (by simp at hBn ⊢; omega)
              (WF_append hA (WF.cons c [] h1 h2 WF.nil)) ht'
            rwa [hdecomp, hlenA] at this
      | link C t' hC ht' =>
          show List.Sublist (lcAux none (lk C t'))
            (lcAux none (reSubFrom (A ++ lk C t') p wt lw A.length))
          rw [reSubFrom_copy_link hC hp A.length le_rfl (by omega)]
          have hslice : slice (A ++ lk C t') A.length (A.length + C.length + 4)
              = lk C [] := by
            rw [show A.length + C.length + 4 = A.length + (C.length + 4) from by omega,
              slice_append_take, take_lk]
          rw [hslice]
          have hshape : lk C []
                ++ reSubFrom (A ++ lk C t') p wt lw (A.length + C.length + 4)
              = lk C (reSubFrom (A ++ lk C t') p wt lw (A.length + C.length + 4)) := by
            simp [lk]
          rw [hshape, lcAux_link hC, lcAux_link hC]
          refine List.Sublist.cons₂ _ ?_
          have hdecomp : (A ++ lk C []) ++ t' = A ++ lk C t' := by
            simp [lk]
          have hlenA : (A ++ lk C []).length = A.length + C.length + 4 := by
            simp [lk]
            omega
          have := ih (A ++ lk C []) t'
            (by simp [lk] at hBn ⊢; omega)
            (WF_append hA (WF.link C [] hC WF.nil)) ht'
          rwa [hdecomp, hlenA] at this

/-- One `re.sub` pass keeps every existing link, verbatim and in order. -/
theorem linkContents_mono_reSub {t p wt lw : Str} (ht : WF t) (hp : noBr p)
    (hwt : noBr wt) (hlw : noBr lw) :
    List.Sublist (linkContents t) (linkContents (reSub t p wt lw)) := by
  have := lcAux_mono_reSubFrom hp hwt hlw t.length [] t le_rfl WF.nil ht
  simpa [reSub, linkContents] using this

/-- The pass `_replace_words` keeps every existing link, verbatim and in order. -/
theorem linkContents_mono_replaceWords {d : Dict} {text word wordType file : Str}
    (ht : WF text) (hw : noBr word) (hwt : noBr wordType) :
    List.Sublist (linkContents text)
      (linkContents (replaceWords d text word wordType file)) := by
  unfold replaceWords
  split
  · have H : ∀ (ps : List Str) (t : Str), (∀ p ∈ ps, noBr p) → WF t →
        List.Sublist (linkContents t)
          (linkContents (ps.foldl (fun t p => reSub t p wordType word) t)) := by
      intro ps
      induction ps with
      | nil => intro t _ _; exact List.Sublist.refl _
      | cons q ps ih =>
          intro t hps ht
          rw [List.foldl_cons]
          exact List.Sublist.trans
            (linkContents_mono_reSub ht (hps q (by simp)) hwt hw)
            (ih _ (fun p hp => hps p (by simp [hp]))
              (WF_reSub ht (hps q (by simp)) hwt hw))
    exact H _ text (noBr_allPatterns hw) ht
  · exact List.Sublist.refl _

/-! ### Dictionary lookup over appends, and the seeding loop -/

theorem lookup_cons {kv : Str × Entry} {d : Dict} {k : Str} :
    lookup (kv :: d) k = if kv.1 == k then some kv.2 else lookup d k := by
  unfold lookup
  rw [List.find?_cons]
  cases h : (kv.1 == k) <;> simp [h]

theorem lookup_append_some {d l : Dict} {k : Str} {e : Entry}
    (h : lookup d k = some e) : lookup (d ++ l) k = some e := by
  induction d with
  | nil => simp [lookup] at h
  | cons kv d ih =>
      rw [lookup_cons] at h
      rw [List.cons_append, lookup_cons]
      by_cases hkv : (kv.1 == k) = true
      · rw [if_pos hkv] at h ⊢
        exact h
      · rw [if_neg hkv] at h ⊢
        exact ih h

theorem lookup_append_none {d l : Dict} {k : Str}
    (h : lookup d k = none) : lookup (d ++ l) k = lookup l k := by
  induction d with
  | nil => rfl
  | cons kv d ih =>
      rw [lookup_cons] at h
      rw [List.cons_append, lookup_cons]
      by_cases hkv : (kv.1 == k) = true
      · rw [if_pos hkv] at h
        simp at h
      · rw [if_neg hkv] at h ⊢
        exact ih h

theorem seedWordList_cons {d : Dict} {w : Str} {ws : List Str} :
    seedWordList d (w :: ws)
      = seedWordList
          (if (lookup d (listKey w)).isSome then d
           else d ++ [(listKey w, ⟨[], "LIST".data, w⟩)]) ws := rfl

/-- Seeding never touches an existing binding. -/
theorem seedWordList_preserves {words : List Str} :
    ∀ {d : Dict} {k : Str} {e : Entry}, lookup d k = some e →
      lookup (seedWordList d words) k = some e := by
  induction words with
  | nil => intro d k e h; exact h
  | cons w ws ih =>
      intro d k e h
      rw [seedWordList_cons]
      refine ih ?_
      split
      · exact h
      · exact lookup_append_some h

/-- A list word whose key is absent gets an entry with empty counts. -/
theorem seedWordList_seeds {words : List Str} :
    ∀ {d : Dict} {w : Str}, w ∈ words → lookup d (listKey w) = none →
      ∃ w', lookup (seedWordList d words) (listKey w)
        = some ⟨[], "LIST".data, w'⟩ := by
  induction words with
  | nil => intro d w hw; simp at hw
  | cons w₀ ws ih =>
      intro d w hw hnone
      rw [seedWordList_cons]
      by_cases hk : (listKey w₀ == listKey w) = true
      · have hk' : listKey w₀ = listKey w := beq_iff_eq.mp hk
        have hnone₀ : lookup d (listKey w₀) = none := by rw [hk']; exact hnone
        rw [if_neg (by simp [hnone₀])]
        refine ⟨w₀, seedWordList_preserves ?_⟩
        rw [lookup_append_none hnone, lookup_cons, if_pos hk]
      · have hw' : w ∈ ws := by
          rcases List.mem_cons.mp hw with rfl | hw'
          · exact absurd (by simp) hk
          · exact hw'
        split
        · exact ih hw' hnone
        · refine ih hw' ?_
          rw [lookup_append_none hnone, lookup_cons, if_neg hk]
          rfl

/-- After seeding, every list word's key is present. -/
theorem seedWordList_all_present {words : List Str} (d : Dict) :
    ∀ w ∈ words, (lookup (seedWordList d words) (listKey w)).isSome := by
  intro w hw
  cases h : lookup d (listKey w) with
  | some e => rw [seedWordList_preserves h]; rfl
  | none =>
      obtain ⟨w', h'⟩ := seedWordList_seeds hw h
      rw [h']
      rfl

/-- Seeding is a no-op when every list word's key is already present. -/
theorem seedWordList_noop {words : List Str} :
    ∀ {d : Dict}, (∀ w ∈ words, (lookup d (listKey w)).isSome) →
      seedWordList d words = d := by
  induction words with
  | nil => intro d _; rfl
  | cons w₀ ws ih =>
      intro d hall
      rw [seedWordList_cons, if_pos (hall w₀ (by simp))]
      exact ih fun w hw => hall w (by simp [hw])

/-- If no `---` pair is found, `_extract_yaml_and_text` returns the input
unchanged. -/
theorem extractYamlAndText_none {s : Str} :
    (extractYamlAndText s).1 = none → (extractYamlAndText s).2 = s := by
  unfold extractYamlAndText
  split
  · intro _; rfl
  · split
    · intro _; rfl
    · intro h; simp at h

/-! ## The claims -/

/-- C1. For every rewritten document produced by the substitution pass of
`generate`, the output contains no nested or overlapping links: scanning the
rewritten text left to right, every `[[` marker has a matching `]]` before
the next `[[`, link spans are disjoint, a term occurring inside
already-linked text is not separately linked, and markup inserted by earlier
entries' passes is treated as already-linked text by later passes.  The
document is assumed well-formed on input (plain text, or text whose only
markup is complete non-nested links), and the dictionary keys and type tags
contain no square brackets, as produced by the scan pass. -/
theorem C1_no_nested_or_overlapping_links (d : Dict) (minSources minCount : Nat)
    (file text : Str) (hWF : WF text)
    (hd : ∀ kv ∈ d, noBr kv.1 ∧ noBr kv.2.type_) :
    scanOk (rewriteFile d minSources minCount file text) = true :=
  scanOk_of_WF (WF_rewriteFile hWF hd)

set_option maxRecDepth 20000 in
/-- Witness for C1 on a concrete document and dictionary. -/
theorem C1_no_nested_or_overlapping_links_witness :
    scanOk (rewriteFile
      [("Jacob".data, ⟨[("D1".data, 2)], "PERSON".data, "Jacob".data⟩)]
      1 1 "D1".data "Jacob went to his den.".data) = true :=
  C1_no_nested_or_overlapping_links _ 1 1 _ _ (noBr_WF (by decide)) (by decide)

/-- C2, counterexample: normalization of entity text is not case-insensitive;
`normalize("jacob")` and `normalize("Jacob")` yield different identity keys
(`_clean_entity_text` strips possessives but `process` never case-folds the
entity key). -/
theorem C2_counterexample : entKey "jacob".data ≠ entKey "Jacob".data := by
  decide

/-- C2, amended: normalization strips a possessive suffix (trailing `'s` or a
bare trailing apostrophe), so the possessive form and the base form of a term
yield the same identity key, and the display text preserves the original
case of the base form; but the entity-key derivation preserves case, so the
lowercase and original-case forms of a term yield different keys (only the
word-list key derivation case-folds). -/
theorem C2_amended :
    (∀ s : Str, cleanEntityText (s ++ "'s".data) = s)
  ∧ (∀ s : Str, cleanEntityText (s ++ ['\'']) = s)
  ∧ entKey "Jacob's".data = entKey "Jacob".data
  ∧ cleanEntityText "Jacob's".data = "Jacob".data
  ∧ entKey "jacob".data ≠ entKey "Jacob".data
  ∧ listKey "Jacob".data = listKey "jacob".data := by
  refine ⟨?_, ?_, by decide, by decide, by decide, by decide⟩
  · intro s
    unfold cleanEntityText
    rw [if_pos (by rw [List.isSuffixOf_iff_suffix]; exact ⟨s, rfl⟩)]
    rw [List.length_append, show s.length + "'s".data.length - 2 = s.length from by simp,
      List.take_left]
  · intro s
    unfold cleanEntityText
    rw [if_neg, if_pos (by rw [List.isSuffixOf_iff_suffix]; exact ⟨s, rfl⟩)]
    · rw [List.length_append, show s.length + ['\''].length - 1 = s.length from by simp,
        List.take_left]
    · intro hsuf
      rw [List.isSuffixOf_iff_suffix] at hsuf
      obtain ⟨u, hu⟩ := hsuf
      have h1 : (u ++ "'s".data).getLast? = some 's' := by
        rw [show u ++ "'s".data = (u ++ ['\'']) ++ ['s'] from by simp]
        exact List.getLast?_concat _
      have h2 : (s ++ ['\'']).getLast? = some '\'' := List.getLast?_concat _
      rw [hu, h2] at h1
      simp at h1

/-- C3. An index entry is published iff its counts map has at least
`min_sources` distinct source documents and a total of at least `min_count`,
or its type is the word-list tag `LIST`; in particular with
`min_sources = 2, min_count = 3`, counts `{A:1, B:1}` is not published,
`{A:2, B:1}` is published, and `{A:3}` is published only for a `LIST`
entry. -/
theorem C3_published_iff :
    (∀ (e : Entry) (minSources minCount : Nat),
      published e minSources minCount = true
        ↔ ((minSources ≤ e.counts.length ∧ minCount ≤ (e.counts.map (·.2)).sum)
            ∨ e.type_ = "LIST".data))
  ∧ published ⟨[("A".data, 1), ("B".data, 1)], "PERSON".data, []⟩ 2 3 = false
  ∧ published ⟨[("A".data, 2), ("B".data, 1)], "PERSON".data, []⟩ 2 3 = true
  ∧ published ⟨[("A".data, 3)], "PERSON".data, []⟩ 2 3 = false
  ∧ published ⟨[("A".data, 3)], "LIST".data, []⟩ 2 3 = true := by
  refine ⟨?_, by decide, by decide, by decide, by decide⟩
  intro e minSources minCount
  unfold published
  simp [Bool.or_eq_true, Bool.and_eq_true, decide_eq_true_eq, beq_iff_eq]

/-- C4. Document scoping: if the published entry for `word` has no count for
`file` (or no entry exists at all), `_replace_words` leaves the document
text unchanged — no link for that entry is ever inserted into that
document, however widely published it is. -/
theorem C4_document_scoping (d : Dict) (text word wordType file : Str)
    (h : ∀ e, lookup d word = some e → ∀ c ∈ e.counts, c.1 ≠ file) :
    replaceWords d text word wordType file = text := by
  unfold replaceWords
  rw [if_neg]
  unfold termAppears
  cases hl : lookup d word with
  | none => simp
  | some e =>
      show ¬((e.counts.find? fun c => c.1 == file).isSome = true)
      rw [List.find?_eq_none.mpr]
      · simp
      · intro c hc
        simp [h e hl c hc]

/-- Witness for C4: an entry counted only in `D1` never rewrites `D2`. -/
theorem C4_document_scoping_witness :
    replaceWords [("jacob".data, ⟨[("D1".data, 1)], "LIST".data, "jacob".data⟩)]
      "jacob went".data "jacob".data "LIST".data "D2".data = "jacob went".data := by
  refine C4_document_scoping _ _ _ _ _ ?_
  intro e he c hc
  rw [lookup_cons, if_pos (by decide)] at he
  obtain rfl : (⟨[("D1".data, 1)], "LIST".data, "jacob".data⟩ : Entry) = e := by
    simpa using he
  simp at hc
  obtain ⟨rfl, -⟩ := hc
  decide

set_option maxRecDepth 20000 in
/-- C5, counterexample: substitution is not order-independent even under the
claim's proviso that no two distinct published entries have partially
overlapping literal surface variants.  The entries are the word-list terms
`den` and `.net`; the first two conjuncts prove the proviso holds in the
strongest sense: (i) across all six-by-six variant pairs (possessive forms
included), no nonempty suffix of one variant equals a prefix of the other in
either direction and neither variant contains the other, all compared
case-insensitively — so occurrences of variants of the two entries can never
overlap in any text at any offset; (ii) concretely, in the document
`den.net is a site` the variant matches are only `den` at `[0,3)` and
`.net` at `[3,7)`, disjoint spans.  Still the two iteration orders give
different rewritten texts (third conjunct): linking `den` first inserts `]]`
before `.net`, turning the word/non-word junction `n.` into the
non-word/non-word junction `].`, which removes the leading `\b` boundary
that `.net` needs, so `.net` is only linked when its entry is processed
first. -/
theorem C5_counterexample :
    (∀ p₁ ∈ allPatterns "den".data, ∀ p₂ ∈ allPatterns ".net".data,
      (∀ k < p₁.length + 1, 0 < k → k ≤ p₂.length →
          lowerStr (p₁.drop (p₁.length - k)) ≠ lowerStr (p₂.take k)
        ∧ lowerStr (p₂.drop (p₂.length - k)) ≠ lowerStr (p₁.take k))
      ∧ containsSub (lowerStr p₁) (lowerStr p₂) = false
      ∧ containsSub (lowerStr p₂) (lowerStr p₁) = false)
  ∧ (∀ i₁ < 17, ∀ i₂ < 17, ∀ p₁ ∈ allPatterns "den".data,
      ∀ p₂ ∈ allPatterns ".net".data,
      matchAt "den.net is a site".data p₁ i₁ = true →
      matchAt "den.net is a site".data p₂ i₂ = true →
      i₁ + p₁.length ≤ i₂ ∨ i₂ + p₂.length ≤ i₁)
  ∧ rewriteFile
      [("den".data, ⟨[("F".data, 1)], "LIST".data, "den".data⟩),
       (".net".data, ⟨[("F".data, 1)], "LIST".data, ".net".data⟩)]
      1 1 "F".data "den.net is a site".data
    ≠ rewriteFile
      [(".net".data, ⟨[("F".data, 1)], "LIST".data, ".net".data⟩),
       ("den".data, ⟨[("F".data, 1)], "LIST".data, "den".data⟩)]
      1 1 "F".data "den.net is a site".data := by
  refine ⟨by decide, by decide, by decide⟩

/-- C5, amended: the final text depends on the order in which the published
entries are iterated even when no two entries' literal surface variants can
ever overlap — a later entry's leading word boundary can be destroyed by an
adjacent earlier substitution when the later variant starts with a non-word
character — so the order-independence part of the claim must be dropped.
What does hold for every entry order is the monotonicity the claim invokes:
text already inside a link — including every link inserted by an earlier
entry's pass over the same document — is treated as already linked and
preserved verbatim by all later passes, so the link contents of the input
text form a sublist of the link contents of the rewritten text, for any
entry order. -/
theorem C5_amended_monotonic_links (d : Dict) (minSources minCount : Nat)
    (file text : Str) (hWF : WF text)
    (hd : ∀ kv ∈ d, noBr kv.1 ∧ noBr kv.2.type_) :
    List.Sublist (linkContents text)
      (linkContents (rewriteFile d minSources minCount file text)) := by
  unfold rewriteFile
  have H : ∀ (l : Dict) (t : Str), (∀ kv ∈ l, noBr kv.1 ∧ noBr kv.2.type_) → WF t →
      List.Sublist (linkContents t)
        (linkContents (l.foldl
          (fun t kv =>
            if published kv.2 minSources minCount then
              replaceWords d t kv.1 kv.2.type_ file
            else t) t)) := by
    intro l
    induction l with
    | nil => intro t _ _; exact List.Sublist.refl _
    | cons kv l ih =>
        intro t hl ht
        rw [List.foldl_cons]
        by_cases hpub : published kv.2 minSources minCount = true
        · rw [if_pos hpub]
          exact List.Sublist.trans
            (linkContents_mono_replaceWords ht (hl kv (by simp)).1 (hl kv (by simp)).2)
            (ih _ (fun x hx => hl x (by simp [hx]))
              (WF_replaceWords ht (hl kv (by simp)).1 (hl kv (by simp)).2))
        · rw [if_neg hpub]
          exact ih _ (fun x hx => hl x (by simp [hx])) ht
  exact H d text hd hWF

set_option maxRecDepth 20000 in
/-- Witness for the amended C5 on a concrete document and dictionary. -/
theorem C5_amended_monotonic_links_witness :
    List.Sublist
      (linkContents "a [[ENTITY/LIST/den|den]] b".data)
      (linkContents (rewriteFile
        [("city".data, ⟨[("F".data, 1)], "LIST".data, "city".data⟩)]
        1 1 "F".data "a [[ENTITY/LIST/den|den]] b".data)) :=
  C5_amended_monotonic_links _ 1 1 _ _
    (WF.cons 'a' _ (by decide) (by decide)
      (WF.cons ' ' _ (by decide) (by decide)
        (WF.link "ENTITY/LIST/den|den".data " b".data (by decide)
          (noBr_WF (by decide)))))
    (by decide)

/-- C6. Word-list always-seeded: a list term whose key is absent from the
index still gets an entry with empty counts; seeding never overwrites an
existing binding; re-seeding is a no-op (idempotent, once per run); and the
index card generated for an empty-counts entry is the heading followed by
the literal not-found note instead of an occurrence list. -/
theorem C6_wordlist_always_seeded :
    (∀ (d : Dict) (words : List Str) (w : Str),
        w ∈ words → lookup d (listKey w) = none →
          ∃ w', lookup (seedWordList d words) (listKey w)
            = some ⟨[], "LIST".data, w'⟩)
  ∧ (∀ (d : Dict) (words : List Str) (k : Str) (e : Entry),
        lookup d k = some e → lookup (seedWordList d words) k = some e)
  ∧ (∀ (d : Dict) (words : List Str),
        seedWordList (seedWordList d words) words = seedWordList d words)
  ∧ (∀ (dataPath : Str) (e : Entry), e.counts = [] →
        genCardContent dataPath e
          = "# ".data ++ e.original_text ++ "\n\n".data
            ++ "*This term was in your word list but not found in any documents.*\n".data) := by
  refine ⟨fun d words w hw hn => seedWordList_seeds hw hn,
    fun d words k e h => seedWordList_preserves h,
    fun d words => seedWordList_noop (seedWordList_all_present d),
    ?_⟩
  intro dataPath e he
  unfold genCardContent
  rw [if_pos (by simp [he])]

/-- Witness for C6 on a concrete dictionary, word list and entry. -/
theorem C6_wordlist_always_seeded_witness :
    (∃ w', lookup (seedWordList [] ["ghost".data]) (listKey "ghost".data)
        = some ⟨[], "LIST".data, w'⟩)
  ∧ genCardContent "data".data ⟨[], "LIST".data, "ghost".data⟩
      = "# ".data ++ "ghost".data ++ "\n\n".data
        ++ "*This term was in your word list but not found in any documents.*\n".data :=
  ⟨C6_wordlist_always_seeded.1 [] ["ghost".data] "ghost".data (by decide) (by decide),
   C6_wordlist_always_seeded.2.2.2 "data".data ⟨[], "LIST".data, "ghost".data⟩ rfl⟩

set_option maxRecDepth 100000 in
/-- C7, counterexample: a possessive mention is not rendered as a single
link whose display text is the possessive surface form; `_replace_words`
substitutes the base form first (the regex `\b` boundary sits between the
base and the apostrophe), leaving `'s` outside the link, so no link with
display text `Jacob Williamson's` appears. -/
theorem C7_counterexample :
    replaceWords
      [("Jacob_Williamson".data,
        ⟨[("D1".data, 2)], "PERSON".data, "Jacob Williamson".data⟩)]
      "Jacob Williamson's friend came.".data
      "Jacob_Williamson".data "PERSON".data "D1".data
      = "[[ENTITY/PERSON/Jacob_Williamson|Jacob Williamson]]'s friend came.".data
  ∧ containsSub
      "[[ENTITY/PERSON/Jacob_Williamson|Jacob Williamson]]'s friend came.".data
      "|Jacob Williamson's]]".data = false := by
  constructor <;> decide

set_option maxRecDepth 100000 in
/-- C7, amended: every substituted link's display text is exactly the
matched surface string (original capitalization preserved) and its target
is the category path `ENTITY`, the type and the key joined with slashes, so
plain and possessive mentions of one term link to the same target; but a
possessive mention is linked only on its base form, the trailing possessive
suffix staying outside the link. -/
theorem C7_amended_display_preserved :
    (∀ (t wordType linkWord : Str) (s e : Nat), insideLink t s e = false →
        replacerFn t wordType linkWord s e
          = '[' :: '[' :: ("ENTITY/".data ++ wordType ++ '/' :: linkWord
              ++ '|' :: slice t s e) ++ [']', ']'])
  ∧ replaceWords
      [("Jacob_Williamson".data,
        ⟨[("D1".data, 2)], "PERSON".data, "Jacob Williamson".data⟩)]
      "Jacob Williamson went home. Jacob Williamson's friend came.".data
      "Jacob_Williamson".data "PERSON".data "D1".data
      = ("[[ENTITY/PERSON/Jacob_Williamson|Jacob Williamson]] went home. "
          ++ "[[ENTITY/PERSON/Jacob_Williamson|Jacob Williamson]]'s friend came.").data := by
  constructor
  · intro t wordType linkWord s e h
    unfold replacerFn linkInsert
    rw [if_neg (by simp [h])]
  · decide

/-- Witness for the amended C7 at a concrete match. -/
theorem C7_amended_display_preserved_witness :
    replacerFn "den went".data "LIST".data "den".data 0 3
      = '[' :: '[' :: ("ENTITY/".data ++ "LIST".data ++ '/' :: "den".data
          ++ '|' :: slice "den went".data 0 3) ++ [']', ']'] :=
  C7_amended_display_preserved.1 "den went".data "LIST".data "den".data 0 3
    (by decide)

/-- C8. Candidate rejection: a candidate whose cleaned text (hyphens,
apostrophes and periods stripped) is shorter than 2 characters, or equals
one of the title abbreviations `Mr.`, `Mrs.`, `Ms.`, fails
`_filter_dictionary`, and the per-entity step of `process` leaves the
dictionary unchanged for it — it never creates or increments an index
entry. -/
theorem C8_candidate_rejection (d : Dict) (file : Str) (ent : SpacyEnt)
    (h : (filterClean ent.text).length < 2
        ∨ filterClean ent.text = "Mr.".data
        ∨ filterClean ent.text = "Mrs.".data
        ∨ filterClean ent.text = "Ms.".data) :
    filterDictionary false false ent.text = false ∧ processEnt d file ent = d := by
  have hf : filterDictionary false false ent.text = false := by
    unfold filterDictionary
    rw [if_neg (by simp)]
    split
    · rfl
    · split
      · rfl
      · split
        · rfl
        · rename_i hlen hstop
          exfalso
          rcases h with h | h | h | h
          · exact hlen h
          · exact hstop (by simp [h])
          · exact hstop (by simp [h])
          · exact hstop (by simp [h])
  refine ⟨hf, ?_⟩
  unfold processEnt
  split
  · rw [hf]
    simp
  · rfl

/-- Witness for C8 with a one-character candidate. -/
theorem C8_candidate_rejection_witness :
    filterDictionary false false "J".data = false
  ∧ processEnt [] "D1".data ⟨"J".data, "PERSON".data⟩ = [] :=
  C8_candidate_rejection [] "D1".data ⟨"J".data, "PERSON".data⟩
    (Or.inl (by decide))

/-- C9, counterexample: a failing document read is not skipped — the scan
loop has no `try/except` around the per-file body, so the first unreadable
document aborts the whole run and the remaining documents (here `good`) are
never processed. -/
theorem C9_counterexample :
    processFiles (fun _ => []) []
      [("bad".data, .error ()), ("good".data, .ok "some text".data)] []
      = .error () := rfl

/-- C9, amended: a failure while reading one document is fatal to the scan
pass: the exception propagates out of the file loop at that document, and
no later document is processed (only the per-entity `_add_to_dictionary`
call is guarded by a `try/except`). -/
theorem C9_amended_read_failure_fatal (ner : Str → List SpacyEnt)
    (words : List Str) (file : Str) (rest : List (Str × Except Unit Str))
    (d : Dict) :
    processFiles ner words ((file, .error ()) :: rest) d = .error () := rfl

set_option maxRecDepth 100000 in
/-- C10, counterexample: the scan pass does not strip the YAML front-matter
block.  `_clean_text` runs first and rewrites every ASCII `-` to ` -- `, so
the `---` delimiters no longer exist when `_extract_yaml_and_text` looks for
them, and the extraction returns no YAML; consequently the scan counts
front-matter occurrences too: the list word `jacob` appearing once in the
front matter and once in the body is counted twice for the file. -/
theorem C10_counterexample :
    (extractYamlAndText
        (cleanText "---\ntitle: jacob\n---\njacob went home".data)).1 = none
  ∧ lookup (processOneFile (fun _ => []) ["jacob".data] []
        "F".data "---\ntitle: jacob\n---\njacob went home".data) "jacob".data
      = some ⟨[("F".data, 2)], "LIST".data, "jacob".data⟩ := by
  constructor <;> decide

set_option maxRecDepth 100000 in
/-- C10, amended: the scan pass and the rewrite pass do operate on different
texts for the same document — the scan applies the punctuation
transformations of `_clean_text` and then attempts YAML extraction (which
finds nothing, the transformations having destroyed the `---` delimiters,
so the transformed front matter is scanned too), while the rewrite pass
reads the raw file content untransformed; consequently a whole-word
occurrence of a published, attested term inside the YAML front-matter block
is replaced by a link in the rewritten output. -/
theorem C10_amended_scan_vs_rewrite_texts :
    (∀ raw : Str, (extractYamlAndText (cleanText raw)).1 = none →
        (extractYamlAndText (cleanText raw)).2 = cleanText raw)
  ∧ (extractYamlAndText
        (cleanText "---\ntitle: jacob\n---\njacob went home".data)).2
      = cleanText "---\ntitle: jacob\n---\njacob went home".data
  ∧ rewriteFile [("jacob".data, ⟨[("F".data, 2)], "LIST".data, "jacob".data⟩)]
      1 1 "F".data "---\ntitle: jacob\n---\njacob went home".data
    = ("---\ntitle: [[ENTITY/LIST/jacob|jacob]]\n---\n"
        ++ "[[ENTITY/LIST/jacob|jacob]] went home").data := by
  refine ⟨fun raw h => extractYamlAndText_none h, by decide, by decide⟩

/-- Witness for the amended C10 at a concrete raw text. -/
theorem C10_amended_scan_vs_rewrite_texts_witness :
    (extractYamlAndText (cleanText "plain text".data)).2
      = cleanText "plain text".data :=
  C10_amended_scan_vs_rewrite_texts.1 "plain text".data (by decide)

end Cyber
